import Mathlib

/-!
# A verification model of the hierarchical state machine engine

This file gives a shallow embedding of `hierarchicalStateMachine.go` and
proves the behavioural properties of the engine against it.

Modelling conventions:

* Go identifies states by pointer; here a state is identified by a
  `StateId` (a natural number) and an environment `Env` maps each id to
  its record (`Entry`/`Exit`/`Handle` action lists and optional
  `ParentState`).  A Go `*State` (possibly `nil`) is an `Option StateId`.
* Actions (`func()`) are side-effecting callbacks; we instrument them as
  labels (`Nat`) and record an execution trace of events.  Predicates
  (`func() bool`) are instrumented as a label plus the boolean they
  return, and their invocations are recorded in the same trace, so that
  evaluation order and short-circuiting are observable.
* The Go loops walk parent pointers, which diverge on cyclic ancestry,
  and write into fixed-capacity scratch arrays (`[MaxStates]*State`),
  which panic when overrun.  Both failure modes are modelled by `none`:
  walks take a `fuel` argument (running out of fuel = divergence) and
  the scratch-array loops take the remaining capacity (running out of
  capacity = index-out-of-range panic), exactly one unit per array write.
-/

/-- `MaxStates` from the source: size of the fixed scratch arrays and
the bound checked at construction. -/
def MaxStates : Nat := 10

/-- States are identified by number (Go: pointer identity). -/
abbrev StateId := Nat

/-- A trace event: an action callback ran (`act`) or a predicate
(event or guard) was invoked (`pred`). -/
inductive Ev where
  | act : Nat → Ev
  | pred : Nat → Ev
deriving DecidableEq, Repr

/-- An instrumented `Predicate`: invoking it is observable via its
label `id`, and it returns `val`. -/
structure Predicate where
  id : Nat
  val : Bool
deriving DecidableEq, Repr

/-- The `State` record: ordered entry/exit/handle action lists and an
optional parent (the `Name` field of the source is unused at runtime
and omitted; identity is the `StateId`). -/
structure State where
  Entry : List Nat
  Exit : List Nat
  Handle : List Nat
  ParentState : Option StateId
deriving DecidableEq, Repr

/-- The environment resolving a `StateId` to its `State` record
(Go: pointer dereference). -/
abbrev Env := StateId → State

/-- The `Transition` record of the source. -/
structure Transition where
  CurrentState : Option StateId
  Event : Predicate
  Guards : List Predicate
  Actions : List Nat
  NextState : Option StateId
deriving DecidableEq, Repr

/-- The engine: mutable current state, the declared state set (only its
length is ever read) and the transition table. -/
structure HierarchicalStateMachine where
  CurrentState : Option StateId
  states : List StateId
  transitions : List Transition
deriving DecidableEq, Repr

/-- `executeActions`: run an action list in order; the trace is the
labels in order. -/
def executeActions (actions : List Nat) : List Ev :=
  actions.map Ev.act

/-- `executeActionsInHierarchy`: recurse to the parent first, then run
the selected action list of the state itself (root-to-leaf).  `fuel`
bounds the recursion depth (cyclic ancestry in Go recurses forever). -/
def executeActionsInHierarchy (env : Env) (sel : State → List Nat) :
    Nat → Option StateId → Option (List Ev)
  | _, none => some []
  | 0, some _ => none
  | fuel + 1, some s =>
      (executeActionsInHierarchy env sel fuel (env s).ParentState).map
        (· ++ executeActions (sel (env s)))

/-- First loop of `findCommonAncestor`: push the whole ancestor chain of
`state1` into the `visited` scratch array.  `cap` is the remaining
capacity of the array; a write with no capacity left is the Go
index-out-of-range panic (`none`). -/
def collectChain (env : Env) : Nat → Option StateId → List StateId → Option (List StateId)
  | _, none, acc => some acc
  | 0, some _, _ => none
  | cap + 1, some s, acc => collectChain env cap (env s).ParentState (acc ++ [s])

/-- Second loop of `findCommonAncestor`: walk `state2`'s ancestor chain
outward, returning the first member of `visited` (inner loop of the
source), `none`-wrapped result `some none` when the chain runs out
(Go returns `nil`).  `fuel` bounds the walk. -/
def findInChain (env : Env) : Nat → Option StateId → List StateId → Option (Option StateId)
  | _, none, _ => some none
  | 0, some _, _ => none
  | fuel + 1, some s, visited =>
      if s ∈ visited then some (some s)
      else findInChain env fuel (env s).ParentState visited

/-- `findCommonAncestor`: deepest common ancestor of the two states,
`some none` meaning the Go result `nil`. -/
def findCommonAncestor (env : Env) (fuel : Nat) (state1 state2 : Option StateId) :
    Option (Option StateId) := do
  let visited ← collectChain env MaxStates state1 []
  findInChain env fuel state2 visited

/-- `exitToCommonAncestor`: run exit actions walking up from `state`
while it differs from `commonAncestor`.  Dereferencing `nil` (the chain
ran out below a non-`nil` ancestor) or running out of fuel is `none`. -/
def exitToCommonAncestor (env : Env) : Nat → Option StateId → Option StateId → Option (List Ev)
  | 0, s, ca => if s = ca then some [] else none
  | fuel + 1, s, ca =>
      if s = ca then some []
      else
        match s with
        | none => none
        | some st =>
            (exitToCommonAncestor env fuel (env st).ParentState ca).map
              (executeActions (env st).Exit ++ ·)

/-- First loop of `enterFromCommonAncestor`: push the states from
`state` up to (excluding) `commonAncestor` onto the `stack` scratch
array, collection order (leaf first).  `cap` is the remaining array
capacity; overflow or a `nil` dereference is `none`. -/
def collectToAncestor (env : Env) : Nat → Option StateId → Option StateId → Option (List StateId)
  | 0, s, ca => if s = ca then some [] else none
  | cap + 1, s, ca =>
      if s = ca then some []
      else
        match s with
        | none => none
        | some st =>
            (collectToAncestor env cap (env st).ParentState ca).map (st :: ·)

/-- `enterFromCommonAncestor`: collect the chain below the ancestor,
then run entry actions from the top of the stack down (root-to-leaf). -/
def enterFromCommonAncestor (env : Env) (state commonAncestor : Option StateId) :
    Option (List Ev) :=
  (collectToAncestor env MaxStates state commonAncestor).map fun stack =>
    stack.reverse.flatMap fun st => executeActions (env st).Entry

/-- `executeTransitionActions`: exits up to the common ancestor, then
the transition's own actions, then entries down from the ancestor. -/
def executeTransitionActions (env : Env) (fuel : Nat) (t : Transition) : Option (List Ev) := do
  let commonAncestor ← findCommonAncestor env fuel t.CurrentState t.NextState
  let exits ← exitToCommonAncestor env fuel t.CurrentState commonAncestor
  let entries ← enterFromCommonAncestor env t.NextState commonAncestor
  some (exits ++ executeActions t.Actions ++ entries)

/-- Guard loop of `HandleStateMachine`: invoke the guards in order,
breaking at the first `false`; returns whether they all passed and the
trace of guard invocations. -/
def evalGuards : List Predicate → Bool × List Ev
  | [] => (true, [])
  | g :: gs =>
      if g.val then
        let r := evalGuards gs
        (r.1, Ev.pred g.id :: r.2)
      else (false, [Ev.pred g.id])

/-- Transition loop of `HandleStateMachine`: scan the table in
declaration order; a transition's event is invoked only when its source
is the current state, its guards only when the event returned true; the
first transition whose guards all pass is selected and the scan stops.
Returns the selected transition (if any) and the trace of predicate
invocations. -/
def scanTransitions (cur : Option StateId) : List Transition → Option Transition × List Ev
  | [] => (none, [])
  | t :: ts =>
      if cur = t.CurrentState then
        if t.Event.val then
          let g := evalGuards t.Guards
          if g.1 then (some t, Ev.pred t.Event.id :: g.2)
          else
            let r := scanTransitions cur ts
            (r.1, Ev.pred t.Event.id :: g.2 ++ r.2)
        else
          let r := scanTransitions cur ts
          (r.1, Ev.pred t.Event.id :: r.2)
      else scanTransitions cur ts

/-- A transition matches when its source is the current state, its
event returns true and every guard returns true (the selection
condition of the transition loop). -/
def Matches (cur : Option StateId) (t : Transition) : Bool :=
  cur = t.CurrentState && t.Event.val && t.Guards.all fun g => g.val

/-- `HandleStateMachine` (one processing tick): hierarchical handle
dispatch, then the transition scan; when a transition is selected its
exit/action/entry effects run and only then is `CurrentState`
reassigned.  Result: the machine after the tick and the full trace. -/
def HandleStateMachine (env : Env) (fuel : Nat) (sm : HierarchicalStateMachine) :
    Option (HierarchicalStateMachine × List Ev) := do
  let h ← executeActionsInHierarchy env (fun s => s.Handle) fuel sm.CurrentState
  match scanTransitions sm.CurrentState sm.transitions with
  | (none, ptr) => some (sm, h ++ ptr)
  | (some t, ptr) => do
      let a ← executeTransitionActions env fuel t
      some ({ sm with CurrentState := t.NextState }, h ++ ptr ++ a)

/-- The configuration error message of `NewHierarchicalStateMachine`. -/
def configErrorMsg (n : Nat) : String :=
  "too many states declared: " ++ toString n ++ ". max allowed is " ++ toString MaxStates

/-- `NewHierarchicalStateMachine`: reject state sets above `MaxStates`
with a configuration error (and no side effects), otherwise build the
engine at the initial state and run hierarchical entry for the initial
state's ancestry chain. -/
def NewHierarchicalStateMachine (env : Env) (fuel : Nat) (initialState : Option StateId)
    (states : List StateId) (transitions : List Transition) :
    Option (Except String HierarchicalStateMachine × List Ev) :=
  if states.length > MaxStates then
    some (Except.error (configErrorMsg states.length), [])
  else
    (executeActionsInHierarchy env (fun s => s.Entry) fuel initialState).map fun tr =>
      (Except.ok ⟨initialState, states, transitions⟩, tr)

/-- `isChain env s l` holds when `l` is the full ancestor chain starting
at `s` (leaf first) and ending at a root (a state with no parent); the
existence of such a finite chain is exactly acyclicity of `s`'s
ancestry. -/
def isChain (env : Env) : Option StateId → List StateId → Bool
  | none, [] => true
  | none, _ :: _ => false
  | some _, [] => false
  | some s, x :: xs => s == x && isChain env (env x).ParentState xs

/-- A micro-step of a tick, used to state atomicity of the state
update: either an observable callback event fires (while the engine's
`CurrentState` field is whatever it currently is), or the engine
assigns `CurrentState`. -/
inductive Step where
  | emit : Ev → Step
  | setState : Option StateId → Step
deriving DecidableEq, Repr

/-- Run micro-steps over the `CurrentState` field: events leave it
unchanged, `setState` overwrites it. -/
def runSteps : Option StateId → List Step → Option StateId
  | c, [] => c
  | c, Step.emit _ :: rest => runSteps c rest
  | _, Step.setState s :: rest => runSteps s rest

/-- The events emitted by a list of micro-steps. -/
def emittedEvents : List Step → List Ev
  | [] => []
  | Step.emit e :: rest => e :: emittedEvents rest
  | Step.setState _ :: rest => emittedEvents rest

/-- The micro-step decomposition of one tick, mirroring the statement
order of `HandleStateMachine`: all callback events of the tick, and,
when a transition was selected, the single `CurrentState` assignment
placed after every one of them (source line order: the call to
`executeTransitionActions` precedes the assignment). -/
def tickSteps (env : Env) (fuel : Nat) (sm : HierarchicalStateMachine) :
    Option (List Step) := do
  let h ← executeActionsInHierarchy env (fun s => s.Handle) fuel sm.CurrentState
  match scanTransitions sm.CurrentState sm.transitions with
  | (none, ptr) => some ((h ++ ptr).map Step.emit)
  | (some t, ptr) => do
      let a ← executeTransitionActions env fuel t
      some ((h ++ ptr ++ a).map Step.emit ++ [Step.setState t.NextState])

/-- A concrete four-state hierarchy used to exercise the theorems:
state 0 is a root with children 1 and 2; state 3 is a child of 1;
state 4 is a second root with child 5. -/
def demoEnv : Env := fun n =>
  match n with
  | 0 => ⟨[100], [101], [102], none⟩
  | 1 => ⟨[110], [111], [112], some 0⟩
  | 2 => ⟨[120], [121], [122], some 0⟩
  | 3 => ⟨[130], [131], [132], some 1⟩
  | 4 => ⟨[140], [141], [142], none⟩
  | 5 => ⟨[150], [151], [152], some 4⟩
  | _ => ⟨[], [], [], none⟩

example : isChain demoEnv (some 3) [3, 1, 0] = true := by decide

example : findCommonAncestor demoEnv 10 (some 3) (some 2) = some (some 0) := by decide

example : findCommonAncestor demoEnv 10 (some 3) (some 5) = some none := by decide

example :
    executeTransitionActions demoEnv 10 ⟨some 3, ⟨900, true⟩, [], [7], some 2⟩ =
      some [Ev.act 131, Ev.act 111, Ev.act 7, Ev.act 120] := by decide

/-! ## Chain lemmas -/

theorem isChain_none_iff (env : Env) (l : List StateId) :
    isChain env none l = true ↔ l = [] := by
  cases l <;> simp [isChain]

theorem isChain_cons_elim (env : Env) (s : Option StateId) (x : StateId) (xs : List StateId)
    (h : isChain env s (x :: xs) = true) :
    s = some x ∧ isChain env (env x).ParentState xs = true := by
  cases s with
  | none => simp [isChain] at h
  | some st =>
      simp [isChain] at h
      obtain ⟨h1, h2⟩ := h
      subst h1
      exact ⟨rfl, h2⟩

theorem isChain_some_ne_nil (env : Env) (s : StateId) (l : List StateId)
    (h : isChain env (some s) l = true) : l ≠ [] := by
  cases l with
  | nil => simp [isChain] at h
  | cons x xs => simp

/-- A chain is uniquely determined by its starting point. -/
theorem chain_unique (env : Env) :
    ∀ (l1 l2 : List StateId) (s : Option StateId),
      isChain env s l1 = true → isChain env s l2 = true → l1 = l2 := by
  intro l1
  induction l1 with
  | nil =>
      intro l2 s h1 h2
      cases s with
      | none => exact ((isChain_none_iff env l2).mp h2).symm
      | some st => simp [isChain] at h1
  | cons x xs ih =>
      intro l2 s h1 h2
      obtain ⟨rfl, h1'⟩ := isChain_cons_elim env s x xs h1
      cases l2 with
      | nil => simp [isChain] at h2
      | cons y ys =>
          obtain ⟨hy, h2'⟩ := isChain_cons_elim env (some x) y ys h2
          have hxy : x = y := by simpa using hy
          subst hxy
          have := ih ys (env x).ParentState h1' h2'
          rw [this]

/-- Each suffix of a chain beginning at a member `x` is the chain of `x`. -/
theorem chain_suffix (env : Env) :
    ∀ (p : List StateId) (s : Option StateId) (x : StateId) (q : List StateId),
      isChain env s (p ++ x :: q) = true → isChain env (some x) (x :: q) = true := by
  intro p
  induction p with
  | nil =>
      intro s x q h
      obtain ⟨rfl, h'⟩ := isChain_cons_elim env s x q h
      simp [isChain, h']
  | cons y ys ih =>
      intro s x q h
      obtain ⟨rfl, h'⟩ := isChain_cons_elim env s y (ys ++ x :: q) h
      exact ih (env y).ParentState x q h'

/-- Chains never repeat a state: the existence of the chain list is
exactly acyclicity along it. -/
theorem chain_nodup (env : Env) :
    ∀ (l : List StateId) (s : Option StateId),
      isChain env s l = true → l.Nodup := by
  intro l
  induction l with
  | nil => intro s _; simp
  | cons x xs ih =>
      intro s h
      obtain ⟨rfl, h'⟩ := isChain_cons_elim env s x xs h
      refine List.nodup_cons.mpr ⟨?_, ih (env x).ParentState h'⟩
      intro hmem
      obtain ⟨p, q, hpq⟩ := List.append_of_mem hmem
      rw [hpq] at h'
      have hx : isChain env (some x) (x :: (p ++ x :: q)) = true := by
        simp [isChain, h']
      have hsuf : isChain env (some x) (x :: q) = true :=
        chain_suffix env (x :: p) (some x) x q hx
      have heq := chain_unique env (x :: (p ++ x :: q)) (x :: q) (some x) hx hsuf
      have hlen := congrArg List.length heq
      simp at hlen
      omega

/-- Two chains decompose into a private part of the second chain plus a
common suffix shared with the first chain. -/
theorem chain_decomp (env : Env) :
    ∀ (lt ls : List StateId) (s t : Option StateId),
      isChain env s ls = true → isChain env t lt = true →
      ∃ tPre com, lt = tPre ++ com ∧ (∀ x ∈ tPre, x ∉ ls) ∧
        ∃ sPre, ls = sPre ++ com := by
  intro lt
  induction lt with
  | nil =>
      intro ls s t _ _
      exact ⟨[], [], by simp, by simp, ls, by simp⟩
  | cons x xt ih =>
      intro ls s t hs ht
      obtain ⟨rfl, ht'⟩ := isChain_cons_elim env t x xt ht
      by_cases hmem : x ∈ ls
      · obtain ⟨p, q, hpq⟩ := List.append_of_mem hmem
        rw [hpq] at hs
        have hxq : isChain env (some x) (x :: q) = true :=
          chain_suffix env p s x q hs
        have hxx : isChain env (some x) (x :: xt) = true := by
          simp [isChain, ht']
        have heq := chain_unique env (x :: xt) (x :: q) (some x) hxx hxq
        have hq : xt = q := by simpa using heq
        subst hq
        exact ⟨[], x :: xt, by simp, by simp, p, hpq⟩
      · obtain ⟨tPre, com, hlt, hdisj, sPre, hls⟩ :=
          ih ls s (env x).ParentState hs ht'
        refine ⟨x :: tPre, com, by simp [hlt], ?_, sPre, hls⟩
        intro y hy
        rcases List.mem_cons.mp hy with rfl | hy'
        · exact hmem
        · exact hdisj y hy'

/-! ## Traversal lemmas -/

/-- Hierarchy walk along a chain: parent actions first, i.e. the trace
is the selected action lists in reverse (root-to-leaf) chain order. -/
theorem executeActionsInHierarchy_eq (env : Env) (sel : State → List Nat) :
    ∀ (l : List StateId) (s : Option StateId) (fuel : Nat),
      isChain env s l = true → l.length ≤ fuel →
      executeActionsInHierarchy env sel fuel s =
        some (l.reverse.flatMap fun st => executeActions (sel (env st))) := by
  intro l
  induction l with
  | nil =>
      intro s fuel hc _
      cases s with
      | none => cases fuel <;> simp [executeActionsInHierarchy]
      | some st => simp [isChain] at hc
  | cons x xs ih =>
      intro s fuel hc hf
      obtain ⟨rfl, hc'⟩ := isChain_cons_elim env s x xs hc
      cases fuel with
      | zero => simp at hf
      | succ f =>
          have hrec := ih (env x).ParentState f hc' (by simp at hf; omega)
          simp [executeActionsInHierarchy, hrec]

/-- The first loop of `findCommonAncestor` collects exactly the chain,
given enough array capacity. -/
theorem collectChain_eq (env : Env) :
    ∀ (l : List StateId) (s : Option StateId) (acc : List StateId) (cap : Nat),
      isChain env s l = true → l.length ≤ cap →
      collectChain env cap s acc = some (acc ++ l) := by
  intro l
  induction l with
  | nil =>
      intro s acc cap hc _
      cases s with
      | none => cases cap <;> simp [collectChain]
      | some st => simp [isChain] at hc
  | cons x xs ih =>
      intro s acc cap hc hcap
      obtain ⟨rfl, hc'⟩ := isChain_cons_elim env s x xs hc
      cases cap with
      | zero => simp at hcap
      | succ c =>
          have hrec := ih (env x).ParentState (acc ++ [x]) c hc' (by simp at hcap; omega)
          simp [collectChain, hrec]

/-- The second loop of `findCommonAncestor` returns the head of the
common suffix: members of the private part are skipped (they are not in
`visited`) and the first common state is found. -/
theorem findInChain_eq (env : Env) :
    ∀ (tPre com : List StateId) (s : Option StateId) (fuel : Nat) (visited : List StateId),
      isChain env s (tPre ++ com) = true →
      (tPre ++ com).length ≤ fuel →
      (∀ x ∈ tPre, x ∉ visited) →
      (∀ c, com.head? = some c → c ∈ visited) →
      findInChain env fuel s visited = some com.head? := by
  intro tPre
  induction tPre with
  | nil =>
      intro com s fuel visited hc hf _ hcom
      cases com with
      | nil =>
          have hnone : s = none := by
            cases s with
            | none => rfl
            | some st => simp [isChain] at hc
          subst hnone
          cases fuel <;> simp [findInChain]
      | cons c cs =>
          obtain ⟨rfl, _⟩ := isChain_cons_elim env s c cs (by simpa using hc)
          cases fuel with
          | zero => simp at hf
          | succ f =>
              have hm : c ∈ visited := hcom c rfl
              simp [findInChain, hm]
  | cons x xt ih =>
      intro com s fuel visited hc hf hpre hcom
      obtain ⟨rfl, hc'⟩ := isChain_cons_elim env s x (xt ++ com) (by simpa using hc)
      cases fuel with
      | zero => simp at hf
      | succ f =>
          have hnot : x ∉ visited := hpre x (by simp)
          have hrec := ih com (env x).ParentState f visited hc'
            (by simp at hf ⊢; omega) (fun y hy => hpre y (by simp [hy])) hcom
          simp [findInChain, hnot, hrec]

/-- The exit walk runs the exit actions of the part of the chain below
the common ancestor, leaf-to-root, and stops at the ancestor. -/
theorem exitToCommonAncestor_eq (env : Env) :
    ∀ (sPre com : List StateId) (s : Option StateId) (fuel : Nat),
      isChain env s (sPre ++ com) = true →
      sPre.length ≤ fuel →
      (∀ x ∈ sPre, com.head? ≠ some x) →
      exitToCommonAncestor env fuel s com.head? =
        some (sPre.flatMap fun st => executeActions (env st).Exit) := by
  intro sPre
  induction sPre with
  | nil =>
      intro com s fuel hc _ _
      have hstop : s = com.head? := by
        cases com with
        | nil =>
            cases s with
            | none => rfl
            | some st => simp [isChain] at hc
        | cons c cs =>
            obtain ⟨rfl, _⟩ := isChain_cons_elim env s c cs (by simpa using hc)
            rfl
      cases fuel <;> simp [exitToCommonAncestor, hstop]
  | cons x xs ih =>
      intro com s fuel hc hf hne
      obtain ⟨rfl, hc'⟩ := isChain_cons_elim env s x (xs ++ com) (by simpa using hc)
      cases fuel with
      | zero => simp at hf
      | succ f =>
          have hx : com.head? ≠ some x := hne x (by simp)
          have hrec := ih com (env x).ParentState f hc'
            (by simp at hf; omega) (fun y hy => hne y (by simp [hy]))
          simp [exitToCommonAncestor, Ne.symm hx, hrec]

/-- The entry-stack loop collects exactly the part of the chain below
the common ancestor, in collection (leaf-first) order. -/
theorem collectToAncestor_eq (env : Env) :
    ∀ (tPre com : List StateId) (s : Option StateId) (cap : Nat),
      isChain env s (tPre ++ com) = true →
      tPre.length ≤ cap →
      (∀ x ∈ tPre, com.head? ≠ some x) →
      collectToAncestor env cap s com.head? = some tPre := by
  intro tPre
  induction tPre with
  | nil =>
      intro com s cap hc _ _
      have hstop : s = com.head? := by
        cases com with
        | nil =>
            cases s with
            | none => rfl
            | some st => simp [isChain] at hc
        | cons c cs =>
            obtain ⟨rfl, _⟩ := isChain_cons_elim env s c cs (by simpa using hc)
            rfl
      cases cap <;> simp [collectToAncestor, hstop]
  | cons x xs ih =>
      intro com s cap hc hcap hne
      obtain ⟨rfl, hc'⟩ := isChain_cons_elim env s x (xs ++ com) (by simpa using hc)
      cases cap with
      | zero => simp at hcap
      | succ c =>
          have hx : com.head? ≠ some x := hne x (by simp)
          have hrec := ih com (env x).ParentState c hc'
            (by simp at hcap; omega) (fun y hy => hne y (by simp [hy]))
          simp [collectToAncestor, Ne.symm hx, hrec]

/-- `findCommonAncestor` on two chains with common suffix `com` returns
the head of `com` (or `nil` when the chains are disjoint). -/
theorem findCommonAncestor_eq (env : Env) (fuel : Nat) (s t : Option StateId)
    (sPre tPre com : List StateId)
    (hS : isChain env s (sPre ++ com) = true)
    (hT : isChain env t (tPre ++ com) = true)
    (hdisj : ∀ x ∈ tPre, x ∉ sPre ++ com)
    (hcapS : (sPre ++ com).length ≤ MaxStates)
    (hfT : (tPre ++ com).length ≤ fuel) :
    findCommonAncestor env fuel s t = some com.head? := by
  have hcollect := collectChain_eq env (sPre ++ com) s [] MaxStates hS hcapS
  have hfind := findInChain_eq env tPre com t fuel (sPre ++ com) hT hfT hdisj
    (by
      intro c hc
      cases com with
      | nil => simp at hc
      | cons c0 cs =>
          simp at hc
          subst hc
          simp)
  simp [findCommonAncestor, hcollect, hfind]

/-- The full effect order of a selected transition: exits of the source
chain below the common ancestor (leaf-to-root), then the transition's
own actions, then entries of the target chain below the ancestor
(root-to-leaf). -/
theorem executeTransitionActions_spec (env : Env) (fuel : Nat) (t : Transition)
    (sPre tPre com : List StateId)
    (hS : isChain env t.CurrentState (sPre ++ com) = true)
    (hT : isChain env t.NextState (tPre ++ com) = true)
    (hdisj : ∀ x ∈ tPre, x ∉ sPre ++ com)
    (hcapS : (sPre ++ com).length ≤ MaxStates)
    (hcapT : tPre.length ≤ MaxStates)
    (hfS : sPre.length ≤ fuel)
    (hfT : (tPre ++ com).length ≤ fuel) :
    executeTransitionActions env fuel t =
      some ((sPre.flatMap fun st => executeActions (env st).Exit)
        ++ executeActions t.Actions
        ++ (tPre.reverse.flatMap fun st => executeActions (env st).Entry)) := by
  have hfca := findCommonAncestor_eq env fuel t.CurrentState t.NextState
    sPre tPre com hS hT hdisj hcapS hfT
  have hnodupS : (sPre ++ com).Nodup := chain_nodup env (sPre ++ com) t.CurrentState hS
  have hexit := exitToCommonAncestor_eq env sPre com t.CurrentState fuel hS hfS
    (by
      intro x hx hhead
      cases com with
      | nil => simp at hhead
      | cons c cs =>
          simp at hhead
          subst hhead
          have := List.disjoint_of_nodup_append hnodupS hx (by simp)
          exact this)
  have hcoll := collectToAncestor_eq env tPre com t.NextState MaxStates hT hcapT
    (by
      intro x hx hhead
      cases com with
      | nil => simp at hhead
      | cons c cs =>
          simp at hhead
          subst hhead
          exact hdisj c hx (by simp))
  simp [executeTransitionActions, hfca, hexit, enterFromCommonAncestor, hcoll]

/-! ## Guard and scan lemmas -/

/-- Full characterization of the guard loop: the result is the
conjunction of all guard values, and the invocation trace is the
guards up to and including the first false one, in declared order. -/
theorem evalGuards_spec (gs : List Predicate) :
    evalGuards gs =
      (gs.all fun g => g.val,
        ((gs.takeWhile fun g => g.val).map fun g => Ev.pred g.id)
          ++ ((gs.dropWhile fun g => g.val).take 1).map fun g => Ev.pred g.id) := by
  induction gs with
  | nil => simp [evalGuards]
  | cons g gs ih =>
      by_cases hg : g.val
      · simp [evalGuards, hg, ih, List.takeWhile_cons, List.dropWhile_cons]
      · simp [evalGuards, hg, List.takeWhile_cons, List.dropWhile_cons]

theorem evalGuards_fst (gs : List Predicate) :
    (evalGuards gs).1 = gs.all fun g => g.val := by
  rw [evalGuards_spec]

theorem evalGuards_events (gs : List Predicate) :
    ∀ e ∈ (evalGuards gs).2, ∃ n, e = Ev.pred n := by
  induction gs with
  | nil => simp [evalGuards]
  | cons g gs ih =>
      by_cases hg : g.val
      · intro e he
        simp [evalGuards, hg] at he
        rcases he with rfl | he'
        · exact ⟨g.id, rfl⟩
        · exact ih e he'
      · intro e he
        simp [evalGuards, hg] at he
        subst he
        exact ⟨g.id, rfl⟩

/-- The predicate invocations recorded while the scan rejects one
transition (nothing when the source differs, the event alone when it is
false, the event plus the guard trace when a guard fails). -/
def skipTrace (cur : Option StateId) (u : Transition) : List Ev :=
  if cur = u.CurrentState then
    if u.Event.val then Ev.pred u.Event.id :: (evalGuards u.Guards).2
    else [Ev.pred u.Event.id]
  else []

theorem matches_elim (cur : Option StateId) (t : Transition)
    (ht : Matches cur t = true) :
    cur = t.CurrentState ∧ t.Event.val = true ∧ (evalGuards t.Guards).1 = true := by
  simp [Matches] at ht
  obtain ⟨⟨h1, h2⟩, h3⟩ := ht
  refine ⟨h1, h2, ?_⟩
  rw [evalGuards_fst]
  simp only [List.all_eq_true]
  intro g hg
  exact h3 g hg

theorem matches_false_guards (cur : Option StateId) (u : Transition)
    (hu : Matches cur u = false) (h1 : cur = u.CurrentState) (h2 : u.Event.val = true) :
    (evalGuards u.Guards).1 = false := by
  rw [evalGuards_fst]
  cases hv : u.Guards.all fun g => g.val
  · rfl
  · exfalso
    simp [Matches, h1, h2, hv] at hu

theorem skipTrace_events (cur : Option StateId) (u : Transition) :
    ∀ e ∈ skipTrace cur u, ∃ n, e = Ev.pred n := by
  intro e he
  by_cases h1 : cur = u.CurrentState
  · by_cases h2 : u.Event.val
    · simp [skipTrace, h1, h2] at he
      rcases he with rfl | he'
      · exact ⟨u.Event.id, rfl⟩
      · exact evalGuards_events u.Guards e he'
    · simp [skipTrace, h1, h2] at he
      subst he
      exact ⟨u.Event.id, rfl⟩
  · simp [skipTrace, h1] at he

/-- Scanning past one rejected transition only accumulates its
predicate invocations. -/
theorem scanTransitions_cons_skip (cur : Option StateId) (u : Transition)
    (us : List Transition) (hu : Matches cur u = false) :
    scanTransitions cur (u :: us) =
      ((scanTransitions cur us).1, skipTrace cur u ++ (scanTransitions cur us).2) := by
  by_cases h1 : cur = u.CurrentState
  · by_cases h2 : u.Event.val
    · have hg : (evalGuards u.Guards).1 = false := matches_false_guards cur u hu h1 h2
      simp [scanTransitions, skipTrace, h1, h2, hg]
    · simp [scanTransitions, skipTrace, h1, h2]
  · simp [scanTransitions, skipTrace, h1]

/-- Scanning a table headed by a matching transition selects it at
once, recording its event and guard invocations. -/
theorem scanTransitions_cons_match (cur : Option StateId) (t : Transition)
    (ts : List Transition) (ht : Matches cur t = true) :
    scanTransitions cur (t :: ts) =
      (some t, Ev.pred t.Event.id :: (evalGuards t.Guards).2) := by
  obtain ⟨h1, h2, hg⟩ := matches_elim cur t ht
  simp [scanTransitions, h1, h2, hg]

/-- A scan over a table with no matching transition selects nothing and
its trace consists of predicate invocations only. -/
theorem scanTransitions_no_match (cur : Option StateId) :
    ∀ ts : List Transition, (∀ u ∈ ts, Matches cur u = false) →
      (scanTransitions cur ts).1 = none ∧
      ∀ e ∈ (scanTransitions cur ts).2, ∃ n, e = Ev.pred n := by
  intro ts
  induction ts with
  | nil => intro _; simp [scanTransitions]
  | cons u us ih =>
      intro h
      have hu := h u (by simp)
      have hrec := ih fun v hv => h v (by simp [hv])
      rw [scanTransitions_cons_skip cur u us hu]
      refine ⟨hrec.1, ?_⟩
      intro e he
      rcases List.mem_append.mp he with he' | he'
      · exact skipTrace_events cur u e he'
      · exact hrec.2 e he'

/-- First-match-wins at the scan level: with no match before `t` and
`t` matching, the scan selects `t` and is oblivious to everything
declared after `t`. -/
theorem scanTransitions_first_match (cur : Option StateId) (t : Transition)
    (ht : Matches cur t = true) :
    ∀ (pre post : List Transition), (∀ u ∈ pre, Matches cur u = false) →
      scanTransitions cur (pre ++ t :: post) = scanTransitions cur (pre ++ [t]) ∧
      (scanTransitions cur (pre ++ t :: post)).1 = some t := by
  intro pre
  induction pre with
  | nil =>
      intro post _
      rw [List.nil_append, List.nil_append, scanTransitions_cons_match cur t post ht,
        scanTransitions_cons_match cur t [] ht]
      exact ⟨rfl, rfl⟩
  | cons u us ih =>
      intro post h
      have hu := h u (by simp)
      have hrec := ih post fun v hv => h v (by simp [hv])
      rw [List.cons_append, List.cons_append,
        scanTransitions_cons_skip cur u (us ++ t :: post) hu,
        scanTransitions_cons_skip cur u (us ++ [t]) hu, hrec.1]
      exact ⟨rfl, by rw [← hrec.1]; exact hrec.2⟩

/-! ## Micro-step lemmas -/

theorem runSteps_emits (c : Option StateId) :
    ∀ l : List Ev, runSteps c (l.map Step.emit) = c := by
  intro l
  induction l with
  | nil => rfl
  | cons e es ih => simpa [runSteps] using ih

theorem runSteps_append (c : Option StateId) :
    ∀ (l1 l2 : List Step), runSteps c (l1 ++ l2) = runSteps (runSteps c l1) l2 := by
  intro l1
  induction l1 generalizing c with
  | nil => intro l2; rfl
  | cons s rest ih =>
      intro l2
      cases s with
      | emit e => simpa [runSteps] using ih c l2
      | setState st => simpa [runSteps] using ih st l2

theorem emittedEvents_map_emit :
    ∀ l : List Ev, emittedEvents (l.map Step.emit) = l := by
  intro l
  induction l with
  | nil => rfl
  | cons e es ih => simpa [emittedEvents] using ih

theorem emittedEvents_append :
    ∀ l1 l2 : List Step, emittedEvents (l1 ++ l2) = emittedEvents l1 ++ emittedEvents l2 := by
  intro l1
  induction l1 with
  | nil => intro l2; rfl
  | cons s rest ih =>
      intro l2
      cases s with
      | emit e => simp [emittedEvents, ih]
      | setState st => simp [emittedEvents, ih]

/-- The micro-step decomposition agrees with `HandleStateMachine`: the
tick's resulting current state is the fold of its micro-steps and its
trace is the events they emit. -/
theorem tickSteps_consistent (env : Env) (fuel : Nat) (sm : HierarchicalStateMachine) :
    HandleStateMachine env fuel sm =
      (tickSteps env fuel sm).map fun steps =>
        ({ sm with CurrentState := runSteps sm.CurrentState steps }, emittedEvents steps) := by
  unfold HandleStateMachine tickSteps
  cases hh : executeActionsInHierarchy env (fun s => s.Handle) fuel sm.CurrentState with
  | none => rfl
  | some h =>
      cases hscan : scanTransitions sm.CurrentState sm.transitions with
      | mk sel ptr =>
          cases sel with
          | none =>
              simp [Option.bind, runSteps_append, runSteps_emits,
                emittedEvents_append, emittedEvents_map_emit]
          | some t =>
              cases ha : executeTransitionActions env fuel t with
              | none => simp [Option.bind, ha]
              | some a =>
                  simp [Option.bind, ha, runSteps_append, runSteps_emits,
                    emittedEvents_append, emittedEvents_map_emit, runSteps, emittedEvents]

/-- Ticks of two machines at the same current state whose transition
tables produce the same scan have the same observable outcome (same
resulting current state, same trace). -/
theorem handle_obs_congr (env : Env) (fuel : Nat) (cur : Option StateId)
    (st1 st2 : List StateId) (ts1 ts2 : List Transition)
    (hscan : scanTransitions cur ts1 = scanTransitions cur ts2) :
    (HandleStateMachine env fuel ⟨cur, st1, ts1⟩).map (fun r => (r.1.CurrentState, r.2)) =
      (HandleStateMachine env fuel ⟨cur, st2, ts2⟩).map (fun r => (r.1.CurrentState, r.2)) := by
  unfold HandleStateMachine
  cases hh : executeActionsInHierarchy env (fun s => s.Handle) fuel cur with
  | none => rfl
  | some h0 =>
      simp only [hh, Option.bind, hscan]
      cases hs2 : scanTransitions cur ts2 with
      | mk sel ptr =>
          cases sel with
          | none => simp
          | some t =>
              cases ha : executeTransitionActions env fuel t with
              | none => simp [ha]
              | some a => simp [ha]

/-! ## The claims -/

/-- C1: for a selected transition from S to T, the side effects are the
exit actions of the part of S's chain strictly below the common
ancestor, leaf-to-root; then the transition's own actions in declared
order; then the entry actions of the part of T's chain strictly below
the ancestor, root-to-leaf.  Taking `sPre = []` (S is the ancestor)
yields no exit of S; taking `tPre = []` (T is the ancestor) yields no
entry of T. -/
theorem executeTransitionActions_order (env : Env) (fuel : Nat) (t : Transition)
    (sPre tPre com : List StateId)
    (hS : isChain env t.CurrentState (sPre ++ com) = true)
    (hT : isChain env t.NextState (tPre ++ com) = true)
    (hdisj : ∀ x ∈ tPre, x ∉ sPre ++ com)
    (hcapS : (sPre ++ com).length ≤ MaxStates)
    (hcapT : tPre.length ≤ MaxStates)
    (hfS : sPre.length ≤ fuel)
    (hfT : (tPre ++ com).length ≤ fuel) :
    executeTransitionActions env fuel t =
      some ((sPre.flatMap fun st => executeActions (env st).Exit)
        ++ executeActions t.Actions
        ++ (tPre.reverse.flatMap fun st => executeActions (env st).Entry)) :=
  executeTransitionActions_spec env fuel t sPre tPre com hS hT hdisj hcapS hcapT hfS hfT

theorem executeTransitionActions_order_witness :
    executeTransitionActions demoEnv 10 ⟨some 3, ⟨900, true⟩, [], [7], some 2⟩ =
      some [Ev.act 131, Ev.act 111, Ev.act 7, Ev.act 120] := by
  have h := executeTransitionActions_order demoEnv 10 ⟨some 3, ⟨900, true⟩, [], [7], some 2⟩
    [3, 1] [2] [0] (by decide) (by decide) (by decide) (by decide) (by decide)
    (by decide) (by decide)
  simpa using h

/-- C2: transitions are scanned in declaration order; the first one
whose source is the current state, whose event is true and whose guards
all pass is selected; nothing declared after it is scanned or executed,
so the tick is observably identical to a tick whose table ends at the
selected transition. -/
theorem first_match_wins (env : Env) (fuel : Nat) (cur : Option StateId)
    (stset : List StateId) (pre post : List Transition) (t : Transition)
    (hpre : ∀ u ∈ pre, Matches cur u = false)
    (ht : Matches cur t = true) :
    (scanTransitions cur (pre ++ t :: post)).1 = some t ∧
    scanTransitions cur (pre ++ t :: post) = scanTransitions cur (pre ++ [t]) ∧
    (HandleStateMachine env fuel ⟨cur, stset, pre ++ t :: post⟩).map
        (fun r => (r.1.CurrentState, r.2)) =
      (HandleStateMachine env fuel ⟨cur, stset, pre ++ [t]⟩).map
        (fun r => (r.1.CurrentState, r.2)) := by
  have h := scanTransitions_first_match cur t ht pre post hpre
  exact ⟨h.2, h.1, handle_obs_congr env fuel cur stset stset _ _ h.1⟩

theorem first_match_wins_witness :
    (scanTransitions (some 1)
        [⟨some 1, ⟨800, false⟩, [], [8], some 2⟩,
         ⟨some 1, ⟨801, true⟩, [], [9], some 2⟩,
         ⟨some 1, ⟨802, true⟩, [], [10], some 0⟩]).1 =
      some ⟨some 1, ⟨801, true⟩, [], [9], some 2⟩ := by
  have h := first_match_wins demoEnv 10 (some 1) [0, 1, 2]
    [⟨some 1, ⟨800, false⟩, [], [8], some 2⟩]
    [⟨some 1, ⟨802, true⟩, [], [10], some 0⟩]
    ⟨some 1, ⟨801, true⟩, [], [9], some 2⟩
    (by decide) (by decide)
  simpa using h.1

/-- C3: construction returns the configuration error, with the message
naming the declared count and the bound and with no entry action
executed, exactly when the declared state count exceeds `MaxStates`;
no engine accompanies an error. -/
theorem construction_bound_error (env : Env) (fuel : Nat) (initialState : Option StateId)
    (states : List StateId) (transitions : List Transition) :
    (MaxStates < states.length →
      NewHierarchicalStateMachine env fuel initialState states transitions =
        some (Except.error (configErrorMsg states.length), [])) ∧
    (∀ e tr, NewHierarchicalStateMachine env fuel initialState states transitions =
        some (Except.error e, tr) →
      MaxStates < states.length ∧ e = configErrorMsg states.length ∧ tr = []) := by
  constructor
  · intro h
    simp [NewHierarchicalStateMachine, h]
  · intro e tr h
    by_cases hlen : MaxStates < states.length
    · simp [NewHierarchicalStateMachine, hlen] at h
      exact ⟨hlen, h.1.symm, h.2⟩
    · exfalso
      simp [NewHierarchicalStateMachine, hlen] at h

theorem construction_bound_error_witness :
    NewHierarchicalStateMachine demoEnv 10 (some 0)
        [0, 1, 2, 3, 4, 5, 6, 7, 8, 9, 10] [] =
      some (Except.error (configErrorMsg 11), []) := by
  have h := (construction_bound_error demoEnv 10 (some 0)
    [0, 1, 2, 3, 4, 5, 6, 7, 8, 9, 10] []).1 (by decide)
  simpa using h

/-- C4: successful construction runs the entry actions of exactly the
initial state's ancestry chain, root-to-leaf, once each (and thereby no
entry action of any state off the chain), and the engine's current
state is the initial state. -/
theorem construction_entry_order (env : Env) (fuel : Nat) (initialState : Option StateId)
    (states : List StateId) (transitions : List Transition) (l : List StateId)
    (hchain : isChain env initialState l = true)
    (hlen : states.length ≤ MaxStates)
    (hfuel : l.length ≤ fuel) :
    NewHierarchicalStateMachine env fuel initialState states transitions =
      some (Except.ok ⟨initialState, states, transitions⟩,
        l.reverse.flatMap fun st => executeActions (env st).Entry) := by
  have hnot : ¬ MaxStates < states.length := by omega
  have he := executeActionsInHierarchy_eq env (fun s => s.Entry) l initialState fuel hchain hfuel
  simp [NewHierarchicalStateMachine, hnot, he]

theorem construction_entry_order_witness :
    NewHierarchicalStateMachine demoEnv 10 (some 3) [0, 1, 2, 3] [] =
      some (Except.ok ⟨some 3, [0, 1, 2, 3], []⟩,
        [Ev.act 100, Ev.act 110, Ev.act 130]) := by
  have h := construction_entry_order demoEnv 10 (some 3) [0, 1, 2, 3] [] [3, 1, 0]
    (by decide) (by decide) (by decide)
  simpa using h

/-- C5: every tick begins with the handle actions of the current
state's whole ancestry chain, root-to-leaf, once per state — the
handle walk computes exactly that trace, and whatever the tick's
outcome, its full trace starts with it. -/
theorem handle_dispatch_order (env : Env) (fuel : Nat) (sm : HierarchicalStateMachine)
    (l : List StateId)
    (hchain : isChain env sm.CurrentState l = true)
    (hfuel : l.length ≤ fuel) :
    executeActionsInHierarchy env (fun s => s.Handle) fuel sm.CurrentState =
      some (l.reverse.flatMap fun st => executeActions (env st).Handle) ∧
    ∀ r, HandleStateMachine env fuel sm = some r →
      ∃ rest, r.2 = (l.reverse.flatMap fun st => executeActions (env st).Handle) ++ rest := by
  have he := executeActionsInHierarchy_eq env (fun s => s.Handle) l sm.CurrentState fuel
    hchain hfuel
  refine ⟨he, ?_⟩
  intro r hr
  unfold HandleStateMachine at hr
  rw [he] at hr
  cases hscan : scanTransitions sm.CurrentState sm.transitions with
  | mk sel ptr =>
      rw [hscan] at hr
      cases sel with
      | none =>
          simp at hr
          exact ⟨ptr, by rw [← hr]⟩
      | some t =>
          cases ha : executeTransitionActions env fuel t with
          | none => simp [ha] at hr
          | some a =>
              simp [ha] at hr
              exact ⟨ptr ++ a, by rw [← hr]⟩

theorem handle_dispatch_order_witness :
    executeActionsInHierarchy demoEnv (fun s => s.Handle) 10 (some 3) =
      some [Ev.act 102, Ev.act 112, Ev.act 132] := by
  have h := handle_dispatch_order demoEnv 10 ⟨some 3, [0, 1, 2, 3], []⟩ [3, 1, 0]
    (by decide) (by decide)
  simpa using h.1

/-- C6: a tick in which no transition matches leaves the machine
unchanged; its trace is exactly the handle dispatch followed by the
scan's predicate invocations, and that remainder contains no action
event (no exit, entry or transition action runs). -/
theorem no_match_tick_frame (env : Env) (fuel : Nat) (sm : HierarchicalStateMachine)
    (l : List StateId)
    (hchain : isChain env sm.CurrentState l = true)
    (hfuel : l.length ≤ fuel)
    (hnm : ∀ u ∈ sm.transitions, Matches sm.CurrentState u = false) :
    HandleStateMachine env fuel sm =
      some (sm, (l.reverse.flatMap fun st => executeActions (env st).Handle)
        ++ (scanTransitions sm.CurrentState sm.transitions).2) ∧
    ∀ e ∈ (scanTransitions sm.CurrentState sm.transitions).2, ∃ n, e = Ev.pred n := by
  have he := executeActionsInHierarchy_eq env (fun s => s.Handle) l sm.CurrentState fuel
    hchain hfuel
  have hs := scanTransitions_no_match sm.CurrentState sm.transitions hnm
  refine ⟨?_, hs.2⟩
  unfold HandleStateMachine
  rw [he]
  cases hscan : scanTransitions sm.CurrentState sm.transitions with
  | mk sel ptr =>
      rw [hscan] at hs
      rcases hs with ⟨hsel, _⟩
      simp only at hsel
      subst hsel
      simp

theorem no_match_tick_frame_witness :
    HandleStateMachine demoEnv 10
        ⟨some 3, [0, 1, 2, 3], [⟨some 3, ⟨800, false⟩, [], [8], some 2⟩]⟩ =
      some (⟨some 3, [0, 1, 2, 3], [⟨some 3, ⟨800, false⟩, [], [8], some 2⟩]⟩,
        [Ev.act 102, Ev.act 112, Ev.act 132, Ev.pred 800]) := by
  have h := no_match_tick_frame demoEnv 10
    ⟨some 3, [0, 1, 2, 3], [⟨some 3, ⟨800, false⟩, [], [8], some 2⟩]⟩ [3, 1, 0]
    (by decide) (by decide) (by decide)
  simpa using h.1

/-- C7: guards are invoked in declared order and evaluation stops at
the first guard returning false — the invocation trace is the true
prefix followed by the first false guard (so a guard after a false one
is never invoked), and the overall verdict is their conjunction. -/
theorem guards_order_short_circuit (gs : List Predicate) :
    evalGuards gs =
      ((gs.all fun g => g.val),
        ((gs.takeWhile fun g => g.val).map fun g => Ev.pred g.id)
          ++ ((gs.dropWhile fun g => g.val).take 1).map fun g => Ev.pred g.id) ∧
    ∀ (g1 : Predicate) (grest : List Predicate), g1.val = false →
      evalGuards (g1 :: grest) = (false, [Ev.pred g1.id]) := by
  refine ⟨evalGuards_spec gs, ?_⟩
  intro g1 grest h
  simp [evalGuards, h]

theorem guards_order_short_circuit_witness :
    evalGuards [⟨41, false⟩, ⟨42, true⟩] = (false, [Ev.pred 41]) :=
  (guards_order_short_circuit []).2 ⟨41, false⟩ [⟨42, true⟩] rfl

/-- C8: the common-ancestor search returns the head of the common
suffix of the two chains — the deepest state on both (every state on
both chains lies in the common suffix) — and `nil` when the chains are
disjoint, in which case the transition runs the exit actions of S's
entire chain and the entry actions of T's entire chain. -/
theorem findCommonAncestor_correct (env : Env) (fuel : Nat) (t : Transition)
    (sPre tPre com : List StateId)
    (hS : isChain env t.CurrentState (sPre ++ com) = true)
    (hT : isChain env t.NextState (tPre ++ com) = true)
    (hdisj : ∀ x ∈ tPre, x ∉ sPre ++ com)
    (hcapS : (sPre ++ com).length ≤ MaxStates)
    (hcapT : tPre.length ≤ MaxStates)
    (hfS : sPre.length ≤ fuel)
    (hfT : (tPre ++ com).length ≤ fuel) :
    findCommonAncestor env fuel t.CurrentState t.NextState = some com.head? ∧
    (∀ x, x ∈ sPre ++ com → x ∈ tPre ++ com → x ∈ com) ∧
    (com = [] →
      executeTransitionActions env fuel t =
        some ((sPre.flatMap fun st => executeActions (env st).Exit)
          ++ executeActions t.Actions
          ++ (tPre.reverse.flatMap fun st => executeActions (env st).Entry))) := by
  refine ⟨findCommonAncestor_eq env fuel t.CurrentState t.NextState sPre tPre com
    hS hT hdisj hcapS hfT, ?_, ?_⟩
  · intro x hxs hxt
    rcases List.mem_append.mp hxt with hx | hx
    · exact absurd hxs (hdisj x hx)
    · exact hx
  · intro _
    exact executeTransitionActions_spec env fuel t sPre tPre com hS hT hdisj
      hcapS hcapT hfS hfT

theorem findCommonAncestor_correct_witness :
    findCommonAncestor demoEnv 10 (some 3) (some 5) = some none ∧
    executeTransitionActions demoEnv 10 ⟨some 3, ⟨901, true⟩, [], [11], some 5⟩ =
      some [Ev.act 131, Ev.act 111, Ev.act 101, Ev.act 11, Ev.act 140, Ev.act 150] := by
  have h := findCommonAncestor_correct demoEnv 10 ⟨some 3, ⟨901, true⟩, [], [11], some 5⟩
    [3, 1, 0] [5, 4] [] (by decide) (by decide) (by decide) (by decide) (by decide)
    (by decide) (by decide)
  exact ⟨by simpa using h.1, by simpa using h.2.2 rfl⟩

/-- C9: when the tick selects a transition, the single assignment of
`CurrentState` is the last micro-step of the tick — every callback
event of the tick precedes it, so the state observed while any
callback runs is still the source state, and the machine
`HandleStateMachine` returns carries the target state exactly once all
effects are in the trace. -/
theorem transition_atomic_update (env : Env) (fuel : Nat)
    (sm : HierarchicalStateMachine) (t : Transition) (ptr : List Ev) (steps : List Step)
    (hscan : scanTransitions sm.CurrentState sm.transitions = (some t, ptr))
    (hsteps : tickSteps env fuel sm = some steps) :
    (∃ evs : List Ev, steps = evs.map Step.emit ++ [Step.setState t.NextState] ∧
      ∀ k, k ≤ evs.length → runSteps sm.CurrentState (steps.take k) = sm.CurrentState) ∧
    runSteps sm.CurrentState steps = t.NextState ∧
    HandleStateMachine env fuel sm =
      some ({ sm with CurrentState := t.NextState }, emittedEvents steps) := by
  have hcons := tickSteps_consistent env fuel sm
  have hsteps0 := hsteps
  unfold tickSteps at hsteps
  cases hh : executeActionsInHierarchy env (fun s => s.Handle) fuel sm.CurrentState with
  | none => rw [hh] at hsteps; simp at hsteps
  | some h0 =>
      rw [hh, hscan] at hsteps
      cases ha : executeTransitionActions env fuel t with
      | none => simp [ha] at hsteps
      | some a =>
          simp [ha] at hsteps
          have hsteps' : steps = (h0 ++ (ptr ++ a)).map Step.emit ++ [Step.setState t.NextState] := by
            rw [← hsteps]
            simp
          have htake : ∀ k, k ≤ (h0 ++ (ptr ++ a)).length →
              runSteps sm.CurrentState (steps.take k) = sm.CurrentState := by
            intro k hk
            rw [hsteps', List.take_append_of_le_length (by simpa using hk), ← List.map_take,
              runSteps_emits]
          have hrun : runSteps sm.CurrentState steps = t.NextState := by
            rw [hsteps', runSteps_append, runSteps_emits]
            rfl
          refine ⟨⟨h0 ++ (ptr ++ a), hsteps', htake⟩, hrun, ?_⟩
          rw [hcons, hsteps0]
          simp [hrun]

theorem transition_atomic_update_witness :
    HandleStateMachine demoEnv 10
        ⟨some 3, [0, 1, 2, 3], [⟨some 3, ⟨903, true⟩, [], [7], some 2⟩]⟩ =
      some (⟨some 2, [0, 1, 2, 3], [⟨some 3, ⟨903, true⟩, [], [7], some 2⟩]⟩,
        [Ev.act 102, Ev.act 112, Ev.act 132, Ev.pred 903,
         Ev.act 131, Ev.act 111, Ev.act 7, Ev.act 120]) := by
  have h := transition_atomic_update demoEnv 10
    ⟨some 3, [0, 1, 2, 3], [⟨some 3, ⟨903, true⟩, [], [7], some 2⟩]⟩
    ⟨some 3, ⟨903, true⟩, [], [7], some 2⟩
    [Ev.pred 903]
    [Step.emit (Ev.act 102), Step.emit (Ev.act 112), Step.emit (Ev.act 132),
     Step.emit (Ev.pred 903), Step.emit (Ev.act 131), Step.emit (Ev.act 111),
     Step.emit (Ev.act 7), Step.emit (Ev.act 120), Step.setState (some 2)]
    (by decide) (by decide)
  simpa using h.2.2

/-- C10: with acyclic ancestry chains of at most `MaxStates` states on
both sides, the fixed-capacity scratch arrays are never overrun and the
traversals terminate: the common-ancestor search yields a result
(rather than the out-of-bounds/divergence `none`), and both the exit
walk and the entry-stack collection succeed on that result. -/
theorem scratch_arrays_safe (env : Env) (fuel : Nat) (s t : Option StateId)
    (ls lt : List StateId)
    (hS : isChain env s ls = true)
    (hT : isChain env t lt = true)
    (hlS : ls.length ≤ MaxStates)
    (hlT : lt.length ≤ MaxStates)
    (hfS : ls.length ≤ fuel)
    (hfT : lt.length ≤ fuel) :
    (findCommonAncestor env fuel s t).isSome = true ∧
    ∀ ca, findCommonAncestor env fuel s t = some ca →
      (exitToCommonAncestor env fuel s ca).isSome = true ∧
      (collectToAncestor env MaxStates t ca).isSome = true := by
  obtain ⟨tPre, com, hlt, hdisj0, sPre, hls⟩ := chain_decomp env lt ls s t hS hT
  subst hlt
  subst hls
  have hca := findCommonAncestor_eq env fuel s t sPre tPre com hS hT hdisj0 hlS hfT
  have hnodup : (sPre ++ com).Nodup := chain_nodup env (sPre ++ com) s hS
  have hsl : sPre.length ≤ fuel := by
    rw [List.length_append] at hfS
    omega
  have htl : tPre.length ≤ MaxStates := by
    rw [List.length_append] at hlT
    omega
  have hexit := exitToCommonAncestor_eq env sPre com s fuel hS hsl
    (by
      intro x hx hhead
      cases com with
      | nil => simp at hhead
      | cons c cs =>
          simp at hhead
          subst hhead
          exact List.disjoint_of_nodup_append hnodup hx (by simp))
  have hcoll := collectToAncestor_eq env tPre com t MaxStates hT htl
    (by
      intro x hx hhead
      cases com with
      | nil => simp at hhead
      | cons c cs =>
          simp at hhead
          subst hhead
          exact hdisj0 c hx (by simp))
  constructor
  · rw [hca]
    rfl
  · intro ca hca'
    rw [hca] at hca'
    obtain rfl := Option.some.inj hca'
    exact ⟨by rw [hexit]; rfl, by rw [hcoll]; rfl⟩

theorem scratch_arrays_safe_witness :
    (findCommonAncestor demoEnv 10 (some 3) (some 2)).isSome = true ∧
    (exitToCommonAncestor demoEnv 10 (some 3) (some 0)).isSome = true ∧
    (collectToAncestor demoEnv MaxStates (some 2) (some 0)).isSome = true := by
  have h := scratch_arrays_safe demoEnv 10 (some 3) (some 2) [3, 1, 0] [2, 0]
    (by decide) (by decide) (by decide) (by decide) (by decide) (by decide)
  have h2 := h.2 (some 0) (by decide)
  exact ⟨h.1, h2.1, h2.2⟩
